import Mathlib

/-!
Verification of the o1js gadget layer against its specification.

Two subsystems are embedded here, following the source files:

* `src/lib/gadgets/sha256.ts` — the SHA-256 compression gadget, the
  chunked-decomposition rotation primitive `ROTR3`, and the small range
  check `rangeCheckNSmall`.  32-bit words are embedded as natural numbers
  (values in `[0, 2^32)`); field elements of the Pallas base field are
  embedded as natural numbers with explicit reduction `% pallasP` where
  field overflow could matter.  All word sums appearing in the gadget are
  far below `pallasP ≈ 2^254`, so unreduced field addition coincides with
  addition on `ℕ`.

* `src/lib/provable/gadgets/native-curve.ts` — scalar multiplication on
  Pallas via shifted scalars, the scalar-splitting gadget, and the
  complete-point-addition wrapper.  Field arithmetic is embedded as
  `ZMod p`; the collaborator primitives that are not part of the
  repository's sources (the `EC_add` gate, `scaleFastUnpack`,
  `ForeignField.sub`) are modelled from the spec where needed.
-/

namespace Sha256Gadget

/-- Right rotation of a 32-bit word, embedding `UInt32.rotate(r, 'right')`:
the low `r` bits wrap around to the top.  For `x < 2^32` this is exactly
the direct bit rotation. -/
def rotr32 (x r : ℕ) : ℕ := x / 2 ^ r + x % 2 ^ r * 2 ^ (32 - r)

/-- Right shift of a 32-bit word, embedding `UInt32.rightShift(n)`. -/
def shr32 (x n : ℕ) : ℕ := x / 2 ^ n

/-- Bitwise XOR on words, embedding `UInt32.xor`. -/
def xor32 (x y : ℕ) : ℕ := Nat.xor x y

/-- Bitwise AND on words, embedding `UInt32.and`. -/
def and32 (x y : ℕ) : ℕ := Nat.land x y

/-- Bitwise complement of a 32-bit word, embedding `UInt32.not`. -/
def not32 (x : ℕ) : ℕ := Nat.xor x (2 ^ 32 - 1)

/-- Embedding of `bitSlice(x, start, length)` from `gadgets/common.ts`:
`(x >> start) & ((1 << length) - 1)`. -/
def bitSlice (x start len : ℕ) : ℕ := x / 2 ^ start % 2 ^ len

/-- Embedding of `ROTR3Simple`: the constant path of `ROTR3`, three direct
bit rotations. -/
def ROTR3Simple (x r0 r1 r2 : ℕ) : ℕ × ℕ × ℕ :=
  (rotr32 x r0, rotr32 x r1, rotr32 x r2)

/-- Value semantics of the variable path of `ROTR3` from `sha256.ts`:
the word is split into four witnessed chunks
`x0 = bitSlice x 0 d0`, `x1 = bitSlice x r0 d1`, `x2 = bitSlice x r1 d2`,
`x3 = bitSlice x r2 d3` (with `d0 = r0`, `d1 = r1-r0`, `d2 = r2-r1`,
`d3 = 32-r2`), and the three outputs are reassembled from the chunks with
rotated weights exactly as in the source:
`xRotR0 = x123 + x0*2^(d1+d2+d3)`, `xRotR1 = x23 + x01*2^(d2+d3)`,
`xRotR2 = x3 + x012*2^d3`. -/
def ROTR3 (x r0 r1 r2 : ℕ) : ℕ × ℕ × ℕ :=
  let d0 := r0
  let d1 := r1 - r0
  let d2 := r2 - r1
  let d3 := 32 - r2
  let x0 := bitSlice x 0 d0
  let x1 := bitSlice x r0 d1
  let x2 := bitSlice x r1 d2
  let x3 := bitSlice x r2 d3
  let x23 := x2 + x3 * 2 ^ d2
  let x123 := x1 + x23 * 2 ^ d1
  let x01 := x0 + x1 * 2 ^ d0
  let x012 := x01 + x2 * 2 ^ (d0 + d1)
  (x123 + x0 * 2 ^ (d1 + d2 + d3), x23 + x01 * 2 ^ (d2 + d3), x3 + x012 * 2 ^ d3)

/-- Embedding of `Ch(x, y, z) = (x ∧ y) ⊕ (¬x ∧ z)` from `sha256.ts`. -/
def Ch (x y z : ℕ) : ℕ := xor32 (and32 x y) (and32 (not32 x) z)

/-- Embedding of `Maj(x, y, z) = (x∧y) ⊕ (x∧z) ⊕ (y∧z)` from `sha256.ts`. -/
def Maj (x y z : ℕ) : ℕ := xor32 (xor32 (and32 x y) (and32 x z)) (and32 y z)

/-- Embedding of `SigmaZero`: XOR of the three outputs of `ROTR3(x, [2, 13, 22])`
(this is the constrained, chunk-decomposition path taken for variable words). -/
def SigmaZero (x : ℕ) : ℕ :=
  let r := ROTR3 x 2 13 22
  xor32 (xor32 r.1 r.2.1) r.2.2

/-- Embedding of `SigmaOne`: XOR of the three outputs of `ROTR3(x, [6, 11, 25])`. -/
def SigmaOne (x : ℕ) : ℕ :=
  let r := ROTR3 x 6 11 25
  xor32 (xor32 r.1 r.2.1) r.2.2

/-- Constant-path variant of `SigmaZero`, using `ROTR3Simple` (the branch
`ROTR3` takes when the word is a circuit constant). -/
def SigmaZeroC (x : ℕ) : ℕ :=
  let r := ROTR3Simple x 2 13 22
  xor32 (xor32 r.1 r.2.1) r.2.2

/-- Constant-path variant of `SigmaOne`, using `ROTR3Simple`. -/
def SigmaOneC (x : ℕ) : ℕ :=
  let r := ROTR3Simple x 6 11 25
  xor32 (xor32 r.1 r.2.1) r.2.2

/-- Embedding of `DeltaZero(x) = rotr(x,7) ⊕ rotr(x,18) ⊕ shr(x,3)`. -/
def DeltaZero (x : ℕ) : ℕ := xor32 (xor32 (rotr32 x 7) (rotr32 x 18)) (shr32 x 3)

/-- Embedding of `DeltaOne(x) = rotr(x,17) ⊕ rotr(x,19) ⊕ shr(x,10)`. -/
def DeltaOne (x : ℕ) : ℕ := xor32 (xor32 (rotr32 x 17) (rotr32 x 19)) (shr32 x 10)

/-- The SHA-256 round constants `K[0..63]` from `SHA256.hash` (§4.2.2 of
FIPS 180-4; the source writes the same 64 values in hexadecimal). -/
def K : List ℕ :=
  [1116352408, 1899447441, 3049323471, 3921009573, 961987163, 1508970993,
   2453635748, 2870763221, 3624381080, 310598401, 607225278, 1426881987,
   1925078388, 2162078206, 2614888103, 3248222580, 3835390401, 4022224774,
   264347078, 604807628, 770255983, 1249150122, 1555081692, 1996064986,
   2554220882, 2821834349, 2952996808, 3210313671, 3336571891, 3584528711,
   113926993, 338241895, 666307205, 773529912, 1294757372, 1396182291,
   1695183700, 1986661051, 2177026350, 2456956037, 2730485921, 2820302411,
   3259730800, 3345764771, 3516065817, 3600352804, 4094571909, 275423344,
   430227734, 506948616, 659060556, 883997877, 958139571, 1322822218,
   1537002063, 1747873779, 1955562222, 2024104815, 2227730452, 2361852424,
   2428436474, 2756734187, 3204031479, 3329325298]

/-- One step of the message-schedule expansion loop from `SHA256.hash`:
append `W[t] = divMod32(DeltaOne(W[t-2]) + W[t-7] + (DeltaZero(W[t-15]) +
W[t-16])).remainder` to the schedule built so far.  The unreduced sum of
four words is below `2^34`, far below the field modulus, so field addition
coincides with addition on `ℕ` and `divMod32`'s remainder is `% 2^32`. -/
def scheduleStep (w : List ℕ) : List ℕ :=
  w ++ [(DeltaOne (w.getD (w.length - 2) 0) + w.getD (w.length - 7) 0 +
         (DeltaZero (w.getD (w.length - 15) 0) + w.getD (w.length - 16) 0)) % 2 ^ 32]

/-- Iterate `scheduleStep` `n` times. -/
def scheduleN : ℕ → List ℕ → List ℕ
  | 0, w => w
  | n + 1, w => scheduleN n (scheduleStep w)

/-- The 64-word message schedule of a block: `W[0..15]` are the block's
words verbatim, the remaining 48 words come from the expansion loop. -/
def messageSchedule (M : List ℕ) : List ℕ := scheduleN 48 M

/-- The eight working variables / digest words, mirroring the `H` array
and the working variables `a..h` of `SHA256.hash`. -/
structure Words8 where
  a : ℕ
  b : ℕ
  c : ℕ
  d : ℕ
  e : ℕ
  f : ℕ
  g : ℕ
  h : ℕ
deriving DecidableEq, Repr

/-- All eight words lie in `[0, 2^32)`. -/
def Words8.Bounded (s : Words8) : Prop :=
  s.a < 2 ^ 32 ∧ s.b < 2 ^ 32 ∧ s.c < 2 ^ 32 ∧ s.d < 2 ^ 32 ∧
  s.e < 2 ^ 32 ∧ s.f < 2 ^ 32 ∧ s.g < 2 ^ 32 ∧ s.h < 2 ^ 32

/-- One round of the compression main loop from `SHA256.hash`, with the
round constant and schedule word passed as the pair `kw`:
`T1 = h + SigmaOne(e) + Ch(e,f,g) + K[t] + W[t]` (unreduced),
`T2 = SigmaZero(a) + Maj(a,b,c)` (unreduced), then the register rotation
with `e := (d + T1) % 2^32` and `a := (T2 + T1) % 2^32`. -/
def roundStep (s : Words8) (kw : ℕ × ℕ) : Words8 :=
  let unreducedT1 := s.h + SigmaOne s.e + Ch s.e s.f s.g + kw.1 + kw.2
  let unreducedT2 := SigmaZero s.a + Maj s.a s.b s.c
  { a := (unreducedT2 + unreducedT1) % 2 ^ 32
    b := s.a
    c := s.b
    d := s.c
    e := (s.d + unreducedT1) % 2 ^ 32
    f := s.e
    g := s.f
    h := s.g }

/-- Constant-path variant of `roundStep`, with the Sigma helpers going
through `ROTR3Simple`. -/
def roundStepC (s : Words8) (kw : ℕ × ℕ) : Words8 :=
  let unreducedT1 := s.h + SigmaOneC s.e + Ch s.e s.f s.g + kw.1 + kw.2
  let unreducedT2 := SigmaZeroC s.a + Maj s.a s.b s.c
  { a := (unreducedT2 + unreducedT1) % 2 ^ 32
    b := s.a
    c := s.b
    d := s.c
    e := (s.d + unreducedT1) % 2 ^ 32
    f := s.e
    g := s.f
    h := s.g }

/-- Digest update after the 64 rounds: `H[i] := H[i].addMod32(working[i])`. -/
def digestAdd (hs s : Words8) : Words8 :=
  { a := (hs.a + s.a) % 2 ^ 32
    b := (hs.b + s.b) % 2 ^ 32
    c := (hs.c + s.c) % 2 ^ 32
    d := (hs.d + s.d) % 2 ^ 32
    e := (hs.e + s.e) % 2 ^ 32
    f := (hs.f + s.f) % 2 ^ 32
    g := (hs.g + s.g) % 2 ^ 32
    h := (hs.h + s.h) % 2 ^ 32 }

/-- Process one message block: expand the schedule, run the 64 rounds from
the running digest, then add the working variables back into the digest. -/
def processBlock (hs : Words8) (M : List ℕ) : Words8 :=
  digestAdd hs (((K.zip (messageSchedule M))).foldl roundStep hs)

/-- Constant-path variant of `processBlock`. -/
def processBlockC (hs : Words8) (M : List ℕ) : Words8 :=
  digestAdd hs (((K.zip (messageSchedule M))).foldl roundStepC hs)

/-- The initial hash values `H` of `SHA256.hash` (§5.3.3 of FIPS 180-4;
the source writes the same 8 values in hexadecimal). -/
def initialH : Words8 :=
  ⟨1779033703, 3144134277, 1013904242, 2773480762,
   1359893119, 2600822924, 528734635, 1541459225⟩

/-- Embedding of `SHA256.hash` on a sequence of message blocks (variable
path: the Sigma helpers go through the chunked `ROTR3`). -/
def SHA256hash (blocks : List (List ℕ)) : Words8 := blocks.foldl processBlock initialH

/-- Embedding of `SHA256.hash` when every word is a circuit constant, so
every `ROTR3` call takes the `ROTR3Simple` branch. -/
def SHA256hashC (blocks : List (List ℕ)) : Words8 := blocks.foldl processBlockC initialH

/-- Modelled from the spec: reference SHA-256 `Σ0(x) =
rotr(x,2) ⊕ rotr(x,13) ⊕ rotr(x,22)` per FIPS 180-4 §4.1.2, using direct
bit rotations. -/
def refSigma0 (x : ℕ) : ℕ := xor32 (xor32 (rotr32 x 2) (rotr32 x 13)) (rotr32 x 22)

/-- Modelled from the spec: reference SHA-256 `Σ1(x) =
rotr(x,6) ⊕ rotr(x,11) ⊕ rotr(x,25)`. -/
def refSigma1 (x : ℕ) : ℕ := xor32 (xor32 (rotr32 x 6) (rotr32 x 11)) (rotr32 x 25)

/-- Modelled from the spec: one reference schedule-expansion step, with
the flat sum `W[t] = (δ1(W[t-2]) + W[t-7] + δ0(W[t-15]) + W[t-16]) mod 2^32`
exactly as the spec writes it. -/
def refScheduleStep (w : List ℕ) : List ℕ :=
  w ++ [(DeltaOne (w.getD (w.length - 2) 0) + w.getD (w.length - 7) 0 +
         DeltaZero (w.getD (w.length - 15) 0) + w.getD (w.length - 16) 0) % 2 ^ 32]

/-- Iterate `refScheduleStep`. -/
def refScheduleN : ℕ → List ℕ → List ℕ
  | 0, w => w
  | n + 1, w => refScheduleN n (refScheduleStep w)

/-- Modelled from the spec: the reference 64-word schedule. -/
def refMessageSchedule (M : List ℕ) : List ℕ := refScheduleN 48 M

/-- Modelled from the spec: one reference compression round, with the
Sigma functions computed by direct bit rotation. -/
def refRoundStep (s : Words8) (kw : ℕ × ℕ) : Words8 :=
  let t1 := s.h + refSigma1 s.e + Ch s.e s.f s.g + kw.1 + kw.2
  let t2 := refSigma0 s.a + Maj s.a s.b s.c
  { a := (t2 + t1) % 2 ^ 32
    b := s.a
    c := s.b
    d := s.c
    e := (s.d + t1) % 2 ^ 32
    f := s.e
    g := s.f
    h := s.g }

/-- Modelled from the spec: reference processing of one block. -/
def refProcessBlock (hs : Words8) (M : List ℕ) : Words8 :=
  digestAdd hs (((K.zip (refMessageSchedule M))).foldl refRoundStep hs)

/-- Modelled from the spec: the reference SHA-256 digest of a sequence of
message blocks (FIPS 180-4, with padding done by the caller, as the spec
specifies). -/
def refSHA256 (blocks : List (List ℕ)) : Words8 := blocks.foldl refProcessBlock initialH

/-- The Pallas base field modulus, the `Field` type of `sha256.ts`. -/
def pallasP : ℕ := 28948022309329048855892746252171976963363056481941560715954676764349967630337

/-- The two checks emitted by `rangeCheckNSmall(x, n)` as a predicate on
the field element's canonical representative: `x.rangeCheckHelper(16)`
asserts `x < 2^16`, and — unless `n = 16`, where the function returns
early — the scaled value `x * 2^(16-n)` (a field multiplication, hence
reduced `% pallasP`) is also asserted to be `< 2^16`. -/
def rangeCheckNSmallOk (x n : ℕ) : Prop :=
  x < 2 ^ 16 ∧ (n = 16 ∨ x * 2 ^ (16 - n) % pallasP < 2 ^ 16)

/-- The assertions `ROTR3` actually performs on its rotation amounts
before emitting constraints, in source order: `rangeCheckNSmall`'s
`assert(n <= 16)` for the chunk widths `d0, d1, d2`, and the explicit
`assert(d3 <= 16)`.  The widths are computed by JavaScript number
subtraction, so they are integers and may be negative; no assertion
checks that the amounts are sorted (the source carries a
`TODO assert bits are sorted` comment instead). -/
def rotr3Accepts (r0 r1 r2 : ℤ) : Bool :=
  r0 ≤ 16 && r1 - r0 ≤ 16 && r2 - r1 ≤ 16 && 32 - r2 ≤ 16

/-- The widths to which `ROTR3` range-checks the four witnessed chunks
`x0, x1, x2, x3`, in source order: `rangeCheckNSmall(x0, d0)`,
`rangeCheckNSmall(x1, d1)`, `rangeCheckNSmall(x2, d2)`, and
`rangeCheckNSmall(x3, 16)` (the source comment: `cheaper and sufficient`). -/
def rotr3CheckWidths (r0 r1 r2 : ℕ) : ℕ × ℕ × ℕ × ℕ :=
  (r0, r1 - r0, r2 - r1, 16)

end Sha256Gadget

namespace NativeCurve

/-- An affine point, the `Point = { x: Field; y: Field }` type of
`native-curve.ts`, with the base field embedded as `ZMod p`. -/
@[ext]
structure Pt (p : ℕ) where
  x : ZMod p
  y : ZMod p
deriving DecidableEq

/-- The Pallas curve equation `y² = x³ + 5` over the base field. -/
@[reducible]
def onCurve {p : ℕ} (P : Pt p) : Prop := P.y ^ 2 = P.x ^ 3 + 5

/-- Embedding of `negate` from `native-curve.ts`. -/
def negate {p : ℕ} (P : Pt p) : Pt p := ⟨P.x, -P.y⟩

/-- Embedding of the witness computation of `add` from `native-curve.ts`
and the values it returns.  `Fp.inverse` returns the modular inverse or
`undefined` (coalesced to `0`), which is exactly `ZMod`'s `⁻¹` at
noninvertible arguments; `Fp.div(a, b) ?? 0` likewise coalesces an
undefined quotient to `0`, matching `a * b⁻¹`.  The witness list also
contains `infZ = (sameX ? inverse(y2-y1) ?? 0 : 0)`, which is only passed
to the `ecAdd` gate and does not bear on the returned values.  The result
point is `(x3, y3) = (s² - x1 - x2, s(x1 - x3) - y1)` and the returned
flag is `isInfinity = inf = sameX ∧ y1 ≠ y2`. -/
def add {p : ℕ} (g h : Pt p) : Pt p × Bool :=
  let x1 := g.x
  let y1 := g.y
  let x2 := h.x
  let y2 := h.y
  let sameX : Bool := decide (x1 = x2)
  let inf : Bool := sameX && decide (y1 ≠ y2)
  let x21Inv := (x2 - x1)⁻¹
  let slopeDouble := 3 * x1 ^ 2 * (2 * y1)⁻¹
  let slopeAdd := (y2 - y1) * x21Inv
  let s := if sameX then slopeDouble else slopeAdd
  let x3 := s ^ 2 - x1 - x2
  let y3 := s * (x1 - x3) - y1
  (⟨x3, y3⟩, inf)

/-- Modelled from the spec (§4.6): reference complete point addition.
Same `x` with different `y` is an inverse pair and yields the point at
infinity; the same point is doubled with tangent slope `3x₁²/(2y₁)`;
otherwise the chord slope `(y₂-y₁)/(x₂-x₁)` is used, with the standard
secant construction for the result in either non-infinite case. -/
def refAdd {p : ℕ} (g h : Pt p) : Option (Pt p) :=
  if g.x = h.x ∧ g.y ≠ h.y then none
  else
    let s := if g = h then 3 * g.x ^ 2 * (2 * g.y)⁻¹ else (h.y - g.y) * (h.x - g.x)⁻¹
    let x3 := s ^ 2 - g.x - h.x
    some ⟨x3, s * (g.x - x3) - g.y⟩

/-- The Pallas scalar field modulus `Fq.modulus` — also the order of the
Pallas group, so exponents of a fixed non-identity point `P` live in
`ZMod pallasQ`. -/
def pallasQ : ℕ := 28948022309329048855892746252171976963363056481941647379679742748393362948097

/-- The shifted scalar value `t = s - 2^254 mod q` computed by
`Fq.mod(s - 2^254)` in the constant case and by `ForeignField.sub(s,
2^254, Fq.modulus)` in the variable case (the latter is collaborator
code; the spec fixes its value as the foreign-field difference). -/
def shiftT (s : ℕ) : ℕ := (s + (pallasQ - 2 ^ 254)) % pallasQ

/-- Modelled from the spec: `ForeignField.sub` returns its result as
three limbs of the collaborator's fixed width `L = 88`; limb 0 of `t`. -/
def limb0 (t : ℕ) : ℕ := t % 2 ^ 88

/-- Limb 1 of a 3-limb foreign field element. -/
def limb1 (t : ℕ) : ℕ := t / 2 ^ 88 % 2 ^ 88

/-- Limb 2 of a 3-limb foreign field element. -/
def limb2 (t : ℕ) : ℕ := t / 2 ^ 176

/-- The five low bits witnessed by `field3ToShiftedScalar`:
`bit(t0, 0) .. bit(t0, 4)` of the low limb of `t = s - 2^254 mod q`,
each asserted boolean by `assertBool`. -/
def low5 (s : ℕ) : Fin 5 → Bool := fun i => (limb0 (shiftT s)).testBit i

/-- The witnessed high part of the low limb, `tHi0 = t0 >> 5`. -/
def tHi0 (s : ℕ) : ℕ := limb0 (shiftT s) / 2 ^ 5

/-- The packed high 250 bits composed by `field3ToShiftedScalar`:
`tHi = tHi0 + t1·2^(L-5) + t2·2^(2L-5)` with `L = 88`. -/
def high250 (s : ℕ) : ℕ := tHi0 s + limb1 (shiftT s) * 2 ^ 83 + limb2 (shiftT s) * 2 ^ 171

/-- Embedding of `packBits` on the five low bits: `Σ bits[i]·2^i`. -/
def packLow5 (b : Fin 5 → Bool) : ℕ :=
  (b 0).toNat + 2 * (b 1).toNat + 4 * (b 2).toNat + 8 * (b 3).toNat + 16 * (b 4).toNat

/-- Embedding of `scaleShiftedSplit5` on the exponent group: every point
in the walk is a multiple of the non-identity input point `P`, whose
subgroup is cyclic of order `pallasQ`, so a point `k·P` is represented by
its exponent `k : ZMod q'`.  Modelled from the spec: `scaleFastUnpack`
returns `R = (2·tHi + 1 + 2^250)·P` (exponent `2·tHi + 1 + 2^250`); the
complete-addition wrapper adds exponents with `isInfinity` exactly when
the sum is the identity; `Provable.if` selects between the branches.  The
all-zero point `(0, 0)` substituted on the infinity flag is encoded by
exponent `0` (the identity is never a legal walk value, so the encoding
is unambiguous).  The sequence of steps mirrors the source: undo the
forced low bit with `t4`, three double-and-conditionally-add steps for
`t3, t2, t1`, one final doubling, the unconditional `add(R, P)` with the
zero-point substitution, and the final select on `t0`. -/
def scaleShiftedWalk (q' : ℕ) (b : Fin 5 → Bool) (tHi : ZMod q') : ZMod q' :=
  let R0 := 2 * tHi + 1 + 2 ^ 250
  let R1 := if b 4 then R0 else R0 - 1
  let R2 := let d := R1 + R1; if b 3 then d + 1 else d
  let R3 := let d := R2 + R2; if b 2 then d + 1 else d
  let R4 := let d := R3 + R3; if b 1 then d + 1 else d
  let R5 := R4 + R4
  let result := R5 + 1
  let result := if result = 0 then 0 else result
  if b 0 then result else R5

/-- Value of the variable path of `scale` on the exponent group: split the
scalar into its shifted representation and run the walk. -/
def scaleExp (s : ℕ) : ZMod pallasQ :=
  scaleShiftedWalk pallasQ (low5 s) ((high250 s : ℕ) : ZMod pallasQ)

/-- Modelled from the spec: one step of a most-significant-bit-first
reference double-and-add on the exponent group. -/
def refDoubleAddAux (q' s : ℕ) : ℕ → ZMod q' → ZMod q'
  | 0, acc => acc
  | k + 1, acc => refDoubleAddAux q' s k (2 * acc + ((s.testBit k).toNat : ZMod q'))

/-- Modelled from the spec: reference double-and-add scalar
multiplication on the exponent group, over the 255 bits of the scalar. -/
def refDoubleAdd (q' s : ℕ) : ZMod q' := refDoubleAddAux q' s 255 0

/-- The constraint events emitted by the gadgets of `native-curve.ts`, as
a small deep embedding sufficient to record which checks each gadget
performs and in what order. -/
inductive CEvent
  | ffSub
  | boolCheck (i : Fin 5)
  | splitEq
  | scaleGate
  | ecAddGate
  | infBool
  | nonZero
  | select
deriving DecidableEq

/-- Constraints emitted by one call of `add`: the `assertBool` on the
witnessed `inf` flag, then the `ecAdd` gate. -/
def addCs : List CEvent := [CEvent.infBool, CEvent.ecAddGate]

/-- Constraints emitted by `addNonZero`: those of `add` plus
`isInfinity.assertFalse()`. -/
def addNonZeroCs : List CEvent := addCs ++ [CEvent.nonZero]

/-- Constraints emitted by the variable path of `field3ToShiftedScalar`,
in source order: the foreign-field subtraction, one `assertBool` per
witnessed low bit, and the low-limb split equation
`packBits(tLo) + tHi0·2^5 = t0`.  No range check is emitted for the
composed `high250`. -/
def field3ToShiftedScalarCs : List CEvent :=
  [CEvent.ffSub] ++
    [CEvent.boolCheck 0, CEvent.boolCheck 1, CEvent.boolCheck 2,
     CEvent.boolCheck 3, CEvent.boolCheck 4] ++ [CEvent.splitEq]

/-- Constraints emitted by the variable path of `scaleShiftedSplit5`, in
source order: the `scaleFastUnpack` gate; `addNonZero(R, -P)` and the
select on `t4`; for each of `t3, t2, t1` a doubling `addNonZero(R, R)`,
a conditional `addNonZero(R, P)` and a select; the final doubling, the
complete `add(R, P)`, the select on the infinity flag, and the select on
`t0`.  Note that no `boolCheck` occurs: the low bits are consumed as
select conditions without being constrained boolean here. -/
def scaleShiftedSplit5Cs : List CEvent :=
  [CEvent.scaleGate] ++ (addNonZeroCs ++ [CEvent.select]) ++
    (addNonZeroCs ++ addNonZeroCs ++ [CEvent.select]) ++
    (addNonZeroCs ++ addNonZeroCs ++ [CEvent.select]) ++
    (addNonZeroCs ++ addNonZeroCs ++ [CEvent.select]) ++
    addNonZeroCs ++ addCs ++ [CEvent.select, CEvent.select]
end NativeCurve

namespace Sha256Gadget

/-- Chunk decomposition: the quotient past the first two chunk widths. -/
lemma div_two_pow_add (x a b : ℕ) :
    x / 2 ^ (a + b) = x / 2 ^ a / 2 ^ b := by
  rw [pow_add, Nat.div_div_eq_div_mul]

/-- Splitting a remainder at a chunk boundary. -/
lemma mod_two_pow_add (x a b : ℕ) :
    x % 2 ^ (a + b) = x % 2 ^ a + 2 ^ a * (x / 2 ^ a % 2 ^ b) := by
  rw [pow_add]
  exact Nat.mod_mul

/-- The top slice of a word bounded by the sum of the chunk widths is
bounded by the top width. -/
lemma top_slice_lt (x a d : ℕ) (hx : x < 2 ^ (a + d)) :
    x / 2 ^ a < 2 ^ d := by
  rw [Nat.div_lt_iff_lt_mul (Nat.pos_pow_of_pos a (by norm_num)), mul_comm]
  rw [pow_add] at hx
  exact hx

/-- Core decomposition fact behind `ROTR3`: if a word `x < 2^32` is cut
into four little-endian chunks of widths `a, b, c, d` (with
`a + b + c + d = 32`), then re-weighting the chunks with the boundary
moved to each chunk start yields the right rotations of `x` by `a`,
`a+b` and `a+b+c`. -/
lemma rotr3_decomp (a b c d x x0 x1 x2 x3 : ℕ)
    (h32 : a + b + c + d = 32) (hx : x < 2 ^ 32)
    (h0 : x0 = x % 2 ^ a) (h1 : x1 = x / 2 ^ a % 2 ^ b)
    (h2 : x2 = x / 2 ^ (a + b) % 2 ^ c) (h3 : x3 = x / 2 ^ (a + b + c) % 2 ^ d) :
    x1 + (x2 + x3 * 2 ^ c) * 2 ^ b + x0 * 2 ^ (b + c + d) = rotr32 x a ∧
    x2 + x3 * 2 ^ c + (x0 + x1 * 2 ^ a) * 2 ^ (c + d) = rotr32 x (a + b) ∧
    x3 + (x0 + x1 * 2 ^ a + x2 * 2 ^ (a + b)) * 2 ^ d = rotr32 x (a + b + c) := by
  have hxd : x < 2 ^ (a + b + c + d) := by rw [h32]; exact hx
  have htop : x / 2 ^ (a + b + c) < 2 ^ d := top_slice_lt x (a + b + c) d hxd
  -- the top chunk needs no reduction
  have h3' : x3 = x / 2 ^ (a + b + c) := by rw [h3, Nat.mod_eq_of_lt htop]
  -- quotient recompositions
  have q2 : x / 2 ^ (a + b) = x2 + 2 ^ c * x3 := by
    rw [h2, h3', div_two_pow_add x (a + b) c]
    exact (Nat.mod_add_div (x / 2 ^ (a + b)) (2 ^ c)).symm
  have q1 : x / 2 ^ a = x1 + 2 ^ b * (x2 + 2 ^ c * x3) := by
    rw [h1, ← q2, div_two_pow_add x a b]
    exact (Nat.mod_add_div (x / 2 ^ a) (2 ^ b)).symm
  -- remainder recompositions
  have m1 : x % 2 ^ (a + b) = x0 + 2 ^ a * x1 := by
    rw [mod_two_pow_add x a b, h0, h1]
  have m2 : x % 2 ^ (a + b + c) = x0 + 2 ^ a * x1 + 2 ^ (a + b) * x2 := by
    rw [mod_two_pow_add x (a + b) c, m1, h2, add_assoc]
  refine ⟨?_, ?_, ?_⟩
  · have e : 32 - a = b + c + d := by omega
    rw [rotr32, e, q1, ← h0]
    ring
  · have e : 32 - (a + b) = c + d := by omega
    rw [rotr32, e, q2, m1]
    ring
  · have e : 32 - (a + b + c) = d := by omega
    rw [rotr32, e, ← h3', m2]
    ring

/-- The chunked decomposition of `ROTR3` computes the three right
rotations, for any strictly ascending rotation amounts below 32. -/
lemma rotr3_eq_rotations (x r0 r1 r2 : ℕ) (hx : x < 2 ^ 32)
    (h01 : r0 < r1) (h12 : r1 < r2) (h2 : r2 < 32) :
    ROTR3 x r0 r1 r2 = (rotr32 x r0, rotr32 x r1, rotr32 x r2) := by
  obtain ⟨b, rfl⟩ : ∃ b, r1 = r0 + b := ⟨r1 - r0, by omega⟩
  obtain ⟨c, rfl⟩ : ∃ c, r2 = r0 + b + c := ⟨r2 - (r0 + b), by omega⟩
  obtain ⟨d, h32⟩ : ∃ d, r0 + b + c + d = 32 := ⟨32 - (r0 + b + c), by omega⟩
  have eb : r0 + b - r0 = b := by omega
  have ec : r0 + b + c - (r0 + b) = c := by omega
  have ed : 32 - (r0 + b + c) = d := by omega
  obtain ⟨g0, g1, g2⟩ := rotr3_decomp r0 b c d x
    (bitSlice x 0 r0) (bitSlice x r0 b) (bitSlice x (r0 + b) c) (bitSlice x (r0 + b + c) d)
    h32 hx (by simp [bitSlice]) (by simp [bitSlice]) (by simp [bitSlice]) (by simp [bitSlice])
  simp only [ROTR3, eb, ec, ed, Prod.mk.injEq]
  exact ⟨g0, g1, g2⟩

/-- On 32-bit words, the chunked `SigmaZero` agrees with the reference
`Σ0` computed by direct bit rotation. -/
lemma SigmaZero_eq (x : ℕ) (hx : x < 2 ^ 32) : SigmaZero x = refSigma0 x := by
  have h := rotr3_eq_rotations x 2 13 22 hx (by norm_num) (by norm_num) (by norm_num)
  simp only [SigmaZero, refSigma0, h]

/-- On 32-bit words, the chunked `SigmaOne` agrees with the reference
`Σ1` computed by direct bit rotation. -/
lemma SigmaOne_eq (x : ℕ) (hx : x < 2 ^ 32) : SigmaOne x = refSigma1 x := by
  have h := rotr3_eq_rotations x 6 11 25 hx (by norm_num) (by norm_num) (by norm_num)
  simp only [SigmaOne, refSigma1, h]

/-- One schedule step of the gadget equals the reference schedule step:
the two only group the four-word sum differently. -/
lemma scheduleStep_eq (w : List ℕ) : scheduleStep w = refScheduleStep w := by
  unfold scheduleStep refScheduleStep
  congr 1
  rw [List.cons_eq_cons]
  refine ⟨congrArg (· % 2 ^ 32) (by ring), rfl⟩

/-- The iterated schedules agree. -/
lemma scheduleN_eq : ∀ (n : ℕ) (w : List ℕ), scheduleN n w = refScheduleN n w
  | 0, _ => rfl
  | n + 1, w => by rw [scheduleN, refScheduleN, ← scheduleStep_eq, scheduleN_eq n]

/-- A schedule step appends one word. -/
lemma scheduleStep_length (w : List ℕ) : (scheduleStep w).length = w.length + 1 := by
  simp [scheduleStep]

/-- Iterating the schedule step `n` times appends `n` words. -/
lemma scheduleN_length : ∀ (n : ℕ) (w : List ℕ), (scheduleN n w).length = w.length + n
  | 0, _ => rfl
  | n + 1, w => by rw [scheduleN, scheduleN_length n, scheduleStep_length]; omega

/-- Schedule expansion leaves the words already present untouched. -/
lemma scheduleN_getD_lt :
    ∀ (n : ℕ) (w : List ℕ) (t : ℕ), t < w.length →
      (scheduleN n w).getD t 0 = w.getD t 0
  | 0, _, _, _ => rfl
  | n + 1, w, t, ht => by
    rw [scheduleN, scheduleN_getD_lt n (scheduleStep w) t (by rw [scheduleStep_length]; omega),
      scheduleStep, List.getD_append _ _ _ _ ht]

/-- The word a schedule step appends. -/
lemma scheduleStep_getD_last (w : List ℕ) :
    (scheduleStep w).getD w.length 0 =
      (DeltaOne (w.getD (w.length - 2) 0) + w.getD (w.length - 7) 0 +
        (DeltaZero (w.getD (w.length - 15) 0) + w.getD (w.length - 16) 0)) % 2 ^ 32 := by
  rw [scheduleStep, List.getD_append_right _ _ _ _ (le_refl _)]
  simp

/-- Every expanded schedule entry satisfies the source's recurrence
against the final schedule. -/
lemma scheduleN_rec :
    ∀ (n : ℕ) (w : List ℕ), 16 ≤ w.length →
      ∀ t, w.length ≤ t → t < w.length + n →
        (scheduleN n w).getD t 0 =
          (DeltaOne ((scheduleN n w).getD (t - 2) 0) + (scheduleN n w).getD (t - 7) 0 +
            (DeltaZero ((scheduleN n w).getD (t - 15) 0) +
              (scheduleN n w).getD (t - 16) 0)) % 2 ^ 32
  | 0, w, _, t, hlo, hhi => by omega
  | n + 1, w, h16, t, hlo, hhi => by
    rcases eq_or_lt_of_le hlo with rfl | hlt
    · have hlen := scheduleStep_length w
      rw [scheduleN]
      have hgetD : ∀ k, 1 ≤ k → k ≤ 16 →
          (scheduleN n (scheduleStep w)).getD (w.length - k) 0 = w.getD (w.length - k) 0 := by
        intro k hk1 hk16
        rw [scheduleN_getD_lt n (scheduleStep w) _ (by omega),
          scheduleStep, List.getD_append _ _ _ _ (by omega)]
      rw [scheduleN_getD_lt n (scheduleStep w) w.length (by omega),
        scheduleStep_getD_last, hgetD 2 (by omega) (by omega), hgetD 7 (by omega) (by omega),
        hgetD 15 (by omega) (by omega), hgetD 16 (by omega) (by omega)]
    · rw [scheduleN]
      exact scheduleN_rec n (scheduleStep w) (by rw [scheduleStep_length]; omega) t
        (by rw [scheduleStep_length]; omega) (by rw [scheduleStep_length]; omega)

/-- A bounded state is mapped to the same next state by the gadget round
and the reference round. -/
lemma roundStep_eq (s : Words8) (kw : ℕ × ℕ) (hs : s.Bounded) :
    roundStep s kw = refRoundStep s kw := by
  obtain ⟨ha, _, _, _, he, _, _, _⟩ := hs
  simp only [roundStep, refRoundStep, SigmaZero_eq s.a ha, SigmaOne_eq s.e he]

/-- The round preserves the word bounds. -/
lemma roundStep_bounded (s : Words8) (kw : ℕ × ℕ) (hs : s.Bounded) :
    (roundStep s kw).Bounded := by
  obtain ⟨ha, hb, hc, _, he, hf, hg, _⟩ := hs
  exact ⟨Nat.mod_lt _ (by norm_num), ha, hb, hc, Nat.mod_lt _ (by norm_num), he, hf, hg⟩

/-- Folding the gadget round over any round inputs agrees with folding
the reference round, starting from any bounded state, and the result is
bounded. -/
lemma foldl_round_eq :
    ∀ (l : List (ℕ × ℕ)) (s : Words8), s.Bounded →
      l.foldl roundStep s = l.foldl refRoundStep s ∧ (l.foldl roundStep s).Bounded
  | [], _, hs => ⟨rfl, hs⟩
  | kw :: l, s, hs => by
    have hb := roundStep_bounded s kw hs
    have ih := foldl_round_eq l (roundStep s kw) hb
    refine ⟨?_, ih.2⟩
    rw [List.foldl_cons, List.foldl_cons, ← roundStep_eq s kw hs, ih.1]

/-- With `ROTR3Simple`, the constant-path `Σ0` is the direct-rotation
reference. -/
lemma SigmaZeroC_eq : SigmaZeroC = refSigma0 := by
  funext x
  simp [SigmaZeroC, refSigma0, ROTR3Simple]

/-- With `ROTR3Simple`, the constant-path `Σ1` is the direct-rotation
reference. -/
lemma SigmaOneC_eq : SigmaOneC = refSigma1 := by
  funext x
  simp [SigmaOneC, refSigma1, ROTR3Simple]

/-- The constant-path round is the reference round. -/
lemma roundStepC_eq : roundStepC = refRoundStep := by
  funext s kw
  simp only [roundStepC, refRoundStep, SigmaZeroC_eq, SigmaOneC_eq]

/-- The digest update always produces bounded words. -/
lemma digestAdd_bounded (hs s : Words8) : (digestAdd hs s).Bounded := by
  refine ⟨?_, ?_, ?_, ?_, ?_, ?_, ?_, ?_⟩ <;> exact Nat.mod_lt _ (by norm_num)

/-- Block processing agrees with the reference on bounded digests. -/
lemma processBlock_eq (hs : Words8) (M : List ℕ) (hb : hs.Bounded) :
    processBlock hs M = refProcessBlock hs M := by
  rw [processBlock, refProcessBlock, refMessageSchedule, ← scheduleN_eq,
    ← messageSchedule, (foldl_round_eq (K.zip (messageSchedule M)) hs hb).1]

/-- The gadget digest equals the reference digest from any bounded
running digest. -/
lemma foldl_block_eq :
    ∀ (blocks : List (List ℕ)) (hs : Words8), hs.Bounded →
      blocks.foldl processBlock hs = blocks.foldl refProcessBlock hs
  | [], _, _ => by rw [List.foldl_nil, List.foldl_nil]
  | M :: blocks, hs, hb => by
    rw [List.foldl_cons, List.foldl_cons, ← processBlock_eq hs M hb, processBlock]
    exact foldl_block_eq blocks _ (digestAdd_bounded _ _)

/-- The constant path also equals the reference digest. -/
lemma foldl_blockC_eq (blocks : List (List ℕ)) (hs : Words8) :
    blocks.foldl processBlockC hs = blocks.foldl refProcessBlock hs := by
  have h : processBlockC = refProcessBlock := by
    funext s M
    rw [processBlockC, refProcessBlock, refMessageSchedule, ← scheduleN_eq,
      ← messageSchedule, roundStepC_eq]
  rw [h]

/-- The initial hash constants are 32-bit words. -/
lemma initialH_bounded : initialH.Bounded := by
  refine ⟨?_, ?_, ?_, ?_, ?_, ?_, ?_, ?_⟩ <;> norm_num [initialH]

/-- Claim C1: for every non-empty sequence of 16-word message blocks of
32-bit words, `SHA256.hash` — on the variable path (`SHA256hash`, Sigma
helpers through the chunked `ROTR3`) and on the constant path
(`SHA256hashC`, through `ROTR3Simple`) alike — equals the reference
FIPS 180-4 digest `refSHA256`; and per block the 64-word schedule keeps
`W[0..15]` verbatim and satisfies
`W[t] = (δ1(W[t-2]) + W[t-7] + δ0(W[t-15]) + W[t-16]) mod 2^32` for
`t ∈ [16, 63]`. -/
theorem sha256_hash_correct (blocks : List (List ℕ))
    (hne : blocks ≠ [])
    (hlen : ∀ M ∈ blocks, M.length = 16)
    (hword : ∀ M ∈ blocks, ∀ w ∈ M, w < 2 ^ 32) :
    SHA256hash blocks = refSHA256 blocks ∧
    SHA256hashC blocks = refSHA256 blocks ∧
    ∀ M ∈ blocks,
      (∀ t, t ≤ 15 → (messageSchedule M).getD t 0 = M.getD t 0) ∧
      (∀ t, 16 ≤ t → t ≤ 63 →
        (messageSchedule M).getD t 0 =
          (DeltaOne ((messageSchedule M).getD (t - 2) 0) +
            (messageSchedule M).getD (t - 7) 0 +
            DeltaZero ((messageSchedule M).getD (t - 15) 0) +
            (messageSchedule M).getD (t - 16) 0) % 2 ^ 32) := by
  refine ⟨foldl_block_eq blocks initialH initialH_bounded,
    foldl_blockC_eq blocks initialH, ?_⟩
  intro M hM
  have h16 : M.length = 16 := hlen M hM
  constructor
  · intro t ht
    exact scheduleN_getD_lt 48 M t (by omega)
  · intro t ht16 ht63
    have h := scheduleN_rec 48 M (by omega) t (by omega) (by omega)
    rw [messageSchedule, h]
    exact congrArg (· % 2 ^ 32) (by ring)

/-- Witness for C1 at the all-zero block. -/
theorem sha256_hash_correct_witness :
    SHA256hash [List.replicate 16 0] = refSHA256 [List.replicate 16 0] ∧
    SHA256hashC [List.replicate 16 0] = refSHA256 [List.replicate 16 0] :=
  ⟨(sha256_hash_correct [List.replicate 16 0] (by decide) (by decide) (by decide)).1,
   (sha256_hash_correct [List.replicate 16 0] (by decide) (by decide) (by decide)).2.1⟩

/-- Claim C2: for every 32-bit word `x` and every strictly increasing
triple of rotation amounts `r0 < r1 < r2 < 32` whose induced chunk widths
are each at most 16, both paths of `ROTR3` — the chunked decomposition
used for variable words and the constant path `ROTR3Simple` — return
exactly the direct bit rotations
`(rotr32 x r0, rotr32 x r1, rotr32 x r2)`. -/
theorem rotr3_both_paths_match (x r0 r1 r2 : ℕ) (hx : x < 2 ^ 32)
    (h01 : r0 < r1) (h12 : r1 < r2) (h2 : r2 < 32)
    (hd0 : r0 ≤ 16) (hd1 : r1 - r0 ≤ 16) (hd2 : r2 - r1 ≤ 16) (hd3 : 32 - r2 ≤ 16) :
    ROTR3 x r0 r1 r2 = (rotr32 x r0, rotr32 x r1, rotr32 x r2) ∧
    ROTR3Simple x r0 r1 r2 = (rotr32 x r0, rotr32 x r1, rotr32 x r2) :=
  ⟨rotr3_eq_rotations x r0 r1 r2 hx h01 h12 h2, rfl⟩

/-- Witness for C2 at `x = 0x12345678`, rotations `(6, 11, 25)`. -/
theorem rotr3_both_paths_match_witness :
    ROTR3 0x12345678 6 11 25 =
      (rotr32 0x12345678 6, rotr32 0x12345678 11, rotr32 0x12345678 25) ∧
    ROTR3Simple 0x12345678 6 11 25 =
      (rotr32 0x12345678 6, rotr32 0x12345678 11, rotr32 0x12345678 25) :=
  rotr3_both_paths_match 0x12345678 6 11 25 (by norm_num) (by norm_num) (by norm_num)
    (by norm_num) (by norm_num) (by norm_num) (by norm_num) (by norm_num)

/-- Claim C6: for `n ≤ 16`, the two checks emitted by `rangeCheckNSmall`
are, over the field, equivalent to a direct `n`-bit range check. -/
theorem rangeCheckNSmall_equiv (x n : ℕ) (hn : n ≤ 16) (hx : x < pallasP) :
    rangeCheckNSmallOk x n ↔ x < 2 ^ n := by
  have hp : (2 : ℕ) ^ 32 ≤ pallasP := by norm_num [pallasP]
  rcases eq_or_lt_of_le hn with rfl | hlt
  · exact ⟨fun h => h.1, fun h => ⟨h, Or.inl rfl⟩⟩
  · have hsplit : (2 : ℕ) ^ 16 = 2 ^ n * 2 ^ (16 - n) := by
      rw [← pow_add]
      congr 1
      omega
    constructor
    · rintro ⟨h1, h2 | h2⟩
      · omega
      · have hlt32 : x * 2 ^ (16 - n) < 2 ^ 32 := by
          calc x * 2 ^ (16 - n) < 2 ^ 16 * 2 ^ (16 - n) :=
                (Nat.mul_lt_mul_right (Nat.pos_pow_of_pos _ (by norm_num))).mpr h1
            _ ≤ 2 ^ 16 * 2 ^ 16 :=
                Nat.mul_le_mul_left _ (Nat.pow_le_pow_right (by norm_num) (by omega))
            _ = 2 ^ 32 := by norm_num
        rw [Nat.mod_eq_of_lt (lt_of_lt_of_le hlt32 hp), hsplit] at h2
        exact (Nat.mul_lt_mul_right (Nat.pos_pow_of_pos _ (by norm_num))).mp h2
    · intro h
      have h1 : x < 2 ^ 16 := lt_of_lt_of_le h (Nat.pow_le_pow_right (by norm_num) hn)
      refine ⟨h1, Or.inr ?_⟩
      have hsm : x * 2 ^ (16 - n) < 2 ^ 16 := by
        rw [hsplit]
        exact (Nat.mul_lt_mul_right (Nat.pos_pow_of_pos _ (by norm_num))).mpr h
      rw [Nat.mod_eq_of_lt (lt_of_lt_of_le hsm (le_trans (by norm_num) hp))]
      exact hsm

/-- Witness for C6 at `x = 5`, `n = 3`. -/
theorem rangeCheckNSmall_equiv_witness : rangeCheckNSmallOk 5 3 ↔ 5 < 2 ^ 3 :=
  rangeCheckNSmall_equiv 5 3 (by norm_num) (by norm_num [pallasP])

/-- Claim C7 is violated by the code: the unsorted rotation triple
`(13, 2, 16)` passes every assertion the variable path of `ROTR3`
performs — there is no sortedness validation (only a
`TODO assert bits are sorted` comment), so constraints are emitted for a
mis-decomposition with the negative chunk width `d1 = -11`. -/
theorem rotr3_accepts_unsorted :
    rotr3Accepts 13 2 16 = true ∧ ¬((13 : ℤ) < 2 ∧ (2 : ℤ) < 16) := by
  decide

/-- Counterexample to claim C8 as stated: for the rotation amounts
`(2, 13, 22)` used by `SigmaZero`, the fourth chunk `x3` is range-checked
to 16 bits, not to its declared width `d3 = 32 - 22 = 10`. -/
theorem rotr3_x3_checked_at_16 :
    (rotr3CheckWidths 2 13 22).2.2.2 ≠ 32 - 22 := by
  decide

/-- Claim C8 as amended: for every valid ascending triple, `ROTR3`
range-checks `x0, x1, x2` to their declared widths `d0, d1, d2` and
checks `x3` to 16 bits instead of `d3` (each emitted check width is at
most 16). -/
theorem rotr3_check_widths_amended (r0 r1 r2 : ℕ)
    (h01 : r0 < r1) (h12 : r1 < r2) (h2 : r2 < 32)
    (hd0 : r0 ≤ 16) (hd1 : r1 - r0 ≤ 16) (hd2 : r2 - r1 ≤ 16) (hd3 : 32 - r2 ≤ 16) :
    rotr3CheckWidths r0 r1 r2 = (r0, r1 - r0, r2 - r1, 16) ∧
    r0 ≤ 16 ∧ r1 - r0 ≤ 16 ∧ r2 - r1 ≤ 16 ∧ (16 : ℕ) ≤ 16 :=
  ⟨rfl, hd0, hd1, hd2, le_refl 16⟩

/-- Witness for the amended C8 at `(2, 13, 22)`. -/
theorem rotr3_check_widths_amended_witness :
    rotr3CheckWidths 2 13 22 = (2, 13 - 2, 22 - 13, 16) ∧
    2 ≤ 16 ∧ 13 - 2 ≤ 16 ∧ 22 - 13 ≤ 16 ∧ (16 : ℕ) ≤ 16 :=
  rotr3_check_widths_amended 2 13 22 (by norm_num) (by norm_num) (by norm_num)
    (by norm_num) (by norm_num) (by norm_num) (by norm_num)

/-- In a chunk recomposition, each partial sum is below the product of
the bounds. -/
lemma chunk_lt (u v U V : ℕ) (hu : u < U) (hv : v < V) : u + v * U < V * U := by
  have h2 : U + v * U = (v + 1) * U := by ring
  have h3 : (v + 1) * U ≤ V * U := Nat.mul_le_mul_right U hv
  omega

/-- Claim C9: any field assignment satisfying the constraints `ROTR3`
emits for a variable word — the three declared-width chunk checks, the
16-bit check on `x3`, and the recomposition equation over the field —
forces `x3 < 2^d3` whenever the recomposed word is a 32-bit word.  The
cheaper 16-bit check on the top chunk therefore loses no soundness. -/
theorem rotr3_x3_sound (r0 r1 r2 x x0 x1 x2 x3 : ℕ)
    (h01 : r0 < r1) (h12 : r1 < r2) (h2 : r2 < 32) (hx : x < 2 ^ 32)
    (hx0 : x0 < 2 ^ r0) (hx1 : x1 < 2 ^ (r1 - r0)) (hx2 : x2 < 2 ^ (r2 - r1))
    (hx3 : x3 < 2 ^ 16)
    (heq : (x0 + (x1 + (x2 + x3 * 2 ^ (r2 - r1)) * 2 ^ (r1 - r0)) * 2 ^ r0) % pallasP
      = x % pallasP) :
    x3 < 2 ^ (32 - r2) := by
  obtain ⟨b, rfl⟩ : ∃ b, r1 = r0 + b := ⟨r1 - r0, by omega⟩
  obtain ⟨c, rfl⟩ : ∃ c, r2 = r0 + b + c := ⟨r2 - (r0 + b), by omega⟩
  obtain ⟨d, h32⟩ : ∃ d, r0 + b + c + d = 32 := ⟨32 - (r0 + b + c), by omega⟩
  have eb : r0 + b - r0 = b := by omega
  have ec : r0 + b + c - (r0 + b) = c := by omega
  have ed : 32 - (r0 + b + c) = d := by omega
  simp only [eb, ec, ed] at *
  -- the recomposed sum is small, so the field equation is an integer one
  have s1 : x2 + x3 * 2 ^ c < 2 ^ 16 * 2 ^ c := chunk_lt x2 x3 (2 ^ c) (2 ^ 16) hx2 hx3
  have s2 : x1 + (x2 + x3 * 2 ^ c) * 2 ^ b < 2 ^ 16 * 2 ^ c * 2 ^ b :=
    chunk_lt _ _ (2 ^ b) (2 ^ 16 * 2 ^ c) hx1 s1
  have s3 : x0 + (x1 + (x2 + x3 * 2 ^ c) * 2 ^ b) * 2 ^ r0
      < 2 ^ 16 * 2 ^ c * 2 ^ b * 2 ^ r0 :=
    chunk_lt _ _ (2 ^ r0) (2 ^ 16 * 2 ^ c * 2 ^ b) hx0 s2
  have hbig : 2 ^ 16 * 2 ^ c * 2 ^ b * 2 ^ r0 ≤ 2 ^ 48 := by
    have : (2 : ℕ) ^ 16 * 2 ^ c * 2 ^ b * 2 ^ r0 = 2 ^ (16 + (c + b + r0)) := by
      rw [pow_add, pow_add, pow_add]
      ring
    rw [this]
    exact Nat.pow_le_pow_right (by norm_num) (by omega)
  have hP : (2 : ℕ) ^ 48 < pallasP := by norm_num [pallasP]
  rw [Nat.mod_eq_of_lt (lt_of_lt_of_le (lt_of_lt_of_le s3 hbig) (le_of_lt hP)),
    Nat.mod_eq_of_lt (lt_trans hx (by norm_num [pallasP]))] at heq
  -- extract the weight of x3 from the integer equation
  have hweight : x3 * (2 ^ c * 2 ^ b * 2 ^ r0) ≤ x := by
    calc x3 * (2 ^ c * 2 ^ b * 2 ^ r0)
        = x3 * 2 ^ c * 2 ^ b * 2 ^ r0 := by ring
      _ ≤ (x2 + x3 * 2 ^ c) * 2 ^ b * 2 ^ r0 := by
          have := Nat.le_add_left (x3 * 2 ^ c) x2
          exact Nat.mul_le_mul_right _ (Nat.mul_le_mul_right _ this)
      _ ≤ (x1 + (x2 + x3 * 2 ^ c) * 2 ^ b) * 2 ^ r0 :=
          Nat.mul_le_mul_right _ (Nat.le_add_left _ _)
      _ ≤ x0 + (x1 + (x2 + x3 * 2 ^ c) * 2 ^ b) * 2 ^ r0 := Nat.le_add_left _ _
      _ = x := heq
  have hxpow : x < 2 ^ d * (2 ^ c * 2 ^ b * 2 ^ r0) := by
    have : (2 : ℕ) ^ d * (2 ^ c * 2 ^ b * 2 ^ r0) = 2 ^ (d + (c + b + r0)) := by
      rw [pow_add, pow_add, pow_add]
    rw [this]
    exact lt_of_lt_of_le hx (Nat.pow_le_pow_right (by norm_num) (by omega))
  exact Nat.lt_of_mul_lt_mul_right (lt_of_le_of_lt hweight hxpow)

/-- Witness for C9 at `(r0, r1, r2) = (2, 13, 22)` and the honest
decomposition of `x = 0xabcdef12`. -/
theorem rotr3_x3_sound_witness :
    bitSlice 0xabcdef12 22 10 < 2 ^ (32 - 22) :=
  rotr3_x3_sound 2 13 22 0xabcdef12
    (bitSlice 0xabcdef12 0 2) (bitSlice 0xabcdef12 2 11)
    (bitSlice 0xabcdef12 13 9) (bitSlice 0xabcdef12 22 10)
    (by norm_num) (by norm_num) (by norm_num) (by norm_num)
    (by norm_num [bitSlice]) (by norm_num [bitSlice]) (by norm_num [bitSlice])
    (by norm_num [bitSlice]) (by norm_num [bitSlice, pallasP])

end Sha256Gadget

namespace NativeCurve

/-- Packing the five low test bits of a number recovers its residue
mod 32. -/
lemma pack_testBits (m : ℕ) :
    (m.testBit 0).toNat + 2 * (m.testBit 1).toNat + 4 * (m.testBit 2).toNat +
      8 * (m.testBit 3).toNat + 16 * (m.testBit 4).toNat = m % 32 := by
  simp only [Nat.toNat_testBit]
  omega

/-- The three 88-bit limbs recompose to the value. -/
lemma limbs_recompose (t : ℕ) :
    limb0 t + limb1 t * 2 ^ 88 + limb2 t * 2 ^ 176 = t := by
  rw [limb0, limb1, limb2]
  have h176 : t / 2 ^ 176 = t / 2 ^ 88 / 2 ^ 88 := by
    rw [Nat.div_div_eq_div_mul, ← pow_add]
  have h1 := Nat.mod_add_div t (2 ^ 88)
  have h2 := Nat.mod_add_div (t / 2 ^ 88) (2 ^ 88)
  have hpw : (2 : ℕ) ^ 176 = 2 ^ 88 * 2 ^ 88 := by rw [← pow_add]
  calc t % 2 ^ 88 + t / 2 ^ 88 % 2 ^ 88 * 2 ^ 88 + t / 2 ^ 176 * 2 ^ 176
      = t % 2 ^ 88 + (t / 2 ^ 88 % 2 ^ 88 + 2 ^ 88 * (t / 2 ^ 88 / 2 ^ 88)) * 2 ^ 88 := by
        rw [h176, hpw]
        ring
    _ = t % 2 ^ 88 + 2 ^ 88 * (t / 2 ^ 88) := by rw [h2]; ring
    _ = t := h1

/-- The shifted scalar is below the modulus. -/
lemma shiftT_lt (s : ℕ) : shiftT s < pallasQ :=
  Nat.mod_lt _ (by norm_num [pallasQ])

/-- Core arithmetic of the scalar-splitting gadget: the packed low bits
and the composed high part recompose `t`, the high part is exactly
`t >> 5` and is below `2^250`, and the witnessed `tHi0` is below `2^83`. -/
lemma shift_split (s : ℕ) :
    packLow5 (low5 s) + high250 s * 2 ^ 5 = shiftT s ∧
    high250 s = shiftT s / 2 ^ 5 ∧ high250 s < 2 ^ 250 ∧ tHi0 s < 2 ^ 83 := by
  set t := shiftT s with ht
  have htq : t < pallasQ := shiftT_lt s
  have ht255 : t < 2 ^ 255 := lt_trans htq (by norm_num [pallasQ])
  have hpack : packLow5 (low5 s) = limb0 t % 32 := by
    rw [packLow5, low5]
    exact pack_testBits (limb0 t)
  have hdvd : (32 : ℕ) ∣ 2 ^ 88 := ⟨2 ^ 83, by norm_num⟩
  have hmod : limb0 t % 32 = t % 32 := by
    rw [limb0, Nat.mod_mod_of_dvd t hdvd]
  have hhigh : high250 s = t / 2 ^ 5 := by
    rw [high250, tHi0]
    conv_rhs => rw [← limbs_recompose t]
    have e1 : limb0 t + limb1 t * 2 ^ 88 + limb2 t * 2 ^ 176
        = limb0 t + (limb1 t * 2 ^ 83 + limb2 t * 2 ^ 171) * 2 ^ 5 := by
      have : (2 : ℕ) ^ 88 = 2 ^ 83 * 2 ^ 5 := by norm_num
      have h2 : (2 : ℕ) ^ 176 = 2 ^ 171 * 2 ^ 5 := by norm_num
      rw [this, h2]
      ring
    rw [e1, Nat.add_mul_div_right _ _ (by norm_num : (0 : ℕ) < 2 ^ 5)]
    ring
  refine ⟨?_, hhigh, ?_, ?_⟩
  · rw [hpack, hmod, hhigh]
    have := Nat.mod_add_div t 32
    have h32 : (2 : ℕ) ^ 5 = 32 := by norm_num
    rw [h32]
    omega
  · rw [hhigh, Nat.div_lt_iff_lt_mul (by norm_num : (0 : ℕ) < 2 ^ 5)]
    calc t < 2 ^ 255 := ht255
      _ = 2 ^ 250 * 2 ^ 5 := by norm_num
  · rw [tHi0, Nat.div_lt_iff_lt_mul (by norm_num : (0 : ℕ) < 2 ^ 5)]
    calc limb0 t < 2 ^ 88 := Nat.mod_lt _ (by norm_num)
      _ = 2 ^ 83 * 2 ^ 5 := by norm_num

/-- The exponent-level walk of `scaleShiftedSplit5` computes
`32·tHi + packBits(low5) + 2^254`, for arbitrary bit values. -/
lemma walk_eq (q' : ℕ) (b : Fin 5 → Bool) (tHi : ZMod q') :
    scaleShiftedWalk q' b tHi = 32 * tHi + (packLow5 b : ℕ) + 2 ^ 254 := by
  have sel : ∀ (bb : Bool) (u : ZMod q'),
      (if bb then u + 1 else u) = u + ((bb.toNat : ℕ) : ZMod q') := by
    intro bb u
    cases bb <;> simp
  have sel4 : ∀ (bb : Bool) (u : ZMod q'),
      (if bb then u else u - 1) = u - 1 + ((bb.toNat : ℕ) : ZMod q') := by
    intro bb u
    cases bb <;> simp
  have selz : ∀ u : ZMod q', (if u = 0 then 0 else u) = u := by
    intro u
    split <;> simp_all
  rw [scaleShiftedWalk]
  simp only [selz, sel, sel4, packLow5]
  push_cast
  ring

/-- One unfolding of the reference double-and-add accumulator. -/
lemma refDoubleAddAux_eq (q' s : ℕ) :
    ∀ (k : ℕ) (acc : ZMod q'),
      refDoubleAddAux q' s k acc = acc * 2 ^ k + ((s % 2 ^ k : ℕ) : ZMod q')
  | 0, acc => by simp [refDoubleAddAux, Nat.mod_one]
  | k + 1, acc => by
    rw [refDoubleAddAux, refDoubleAddAux_eq q' s k]
    have hsplit := Sha256Gadget.mod_two_pow_add s k 1
    have hbit : (s.testBit k).toNat = s / 2 ^ k % 2 := Nat.toNat_testBit s k
    rw [hsplit, hbit]
    push_cast
    ring

/-- The reference double-and-add over 255 bits recovers the scalar
mod `q`. -/
lemma refDoubleAdd_eq (q' s : ℕ) (hs : s < 2 ^ 255) :
    refDoubleAdd q' s = ((s : ℕ) : ZMod q') := by
  rw [refDoubleAdd, refDoubleAddAux_eq q' s 255 0, Nat.mod_eq_of_lt hs]
  simp

/-- Casting the shifted scalar back to `ZMod q` undoes the shift. -/
lemma shiftT_cast (s : ℕ) :
    ((shiftT s : ℕ) : ZMod pallasQ) = (s : ZMod pallasQ) - 2 ^ 254 := by
  have h254 : (2 : ℕ) ^ 254 ≤ pallasQ := by norm_num [pallasQ]
  rw [shiftT, ZMod.natCast_mod, Nat.cast_add, Nat.cast_sub h254, ZMod.natCast_self]
  push_cast
  ring

/-- Claim C5: for every scalar `s`, the ShiftedScalar produced by
`field3ToShiftedScalar` satisfies the data-type invariant: with
`t = s - 2^254 mod q`, the packed `low5` plus `high250 · 2^5` equal `t`
as integers and `high250 < 2^250`; the witnessed `tHi0` satisfies
`tHi0 < 2^83` because the low limb satisfies `t0 < 2^88`. -/
theorem field3ToShiftedScalar_invariant (s : ℕ) (hs : s < pallasQ) :
    packLow5 (low5 s) + high250 s * 2 ^ 5 = shiftT s ∧
    high250 s < 2 ^ 250 ∧ limb0 (shiftT s) < 2 ^ 88 ∧ tHi0 s < 2 ^ 83 := by
  obtain ⟨h1, _, h3, h4⟩ := shift_split s
  exact ⟨h1, h3, Nat.mod_lt _ (by norm_num), h4⟩

/-- Witness for C5 at `s = 1`. -/
theorem field3ToShiftedScalar_invariant_witness :
    packLow5 (low5 1) + high250 1 * 2 ^ 5 = shiftT 1 ∧
    high250 1 < 2 ^ 250 ∧ limb0 (shiftT 1) < 2 ^ 88 ∧ tHi0 1 < 2 ^ 83 :=
  field3ToShiftedScalar_invariant 1 (by norm_num [pallasQ])

/-- Claim C3: for every scalar `s`, the variable path of `scale` — the
shifted-scalar split followed by the `scaleShiftedSplit5` walk — returns
the exponent `s`, i.e. `s·P`, exactly as the reference double-and-add
computes it; and for `s = 0` the result is the exponent `0`, encoding
the all-zero point substituted when the final addition reports the
infinity flag. -/
theorem scale_matches_double_add (s : ℕ) (hs : s < pallasQ) :
    scaleExp s = refDoubleAdd pallasQ s ∧ (s = 0 → scaleExp s = 0) := by
  have hmain : scaleExp s = ((s : ℕ) : ZMod pallasQ) := by
    rw [scaleExp, walk_eq]
    have hcomb : 32 * ((high250 s : ℕ) : ZMod pallasQ) + ((packLow5 (low5 s) : ℕ) : ZMod pallasQ)
        = ((shiftT s : ℕ) : ZMod pallasQ) := by
      rw [← (shift_split s).1]
      push_cast
      ring
    calc 32 * ((high250 s : ℕ) : ZMod pallasQ) + ((packLow5 (low5 s) : ℕ) : ZMod pallasQ) + 2 ^ 254
        = ((shiftT s : ℕ) : ZMod pallasQ) + 2 ^ 254 := by rw [hcomb]
      _ = (s : ZMod pallasQ) - 2 ^ 254 + 2 ^ 254 := by rw [shiftT_cast]
      _ = (s : ZMod pallasQ) := by ring
  refine ⟨?_, ?_⟩
  · rw [hmain, refDoubleAdd_eq pallasQ s (lt_trans hs (by norm_num [pallasQ]))]
  · rintro rfl
    rw [hmain]
    simp

/-- Witness for C3 at the boundary scalar `s = 0`. -/
theorem scale_matches_double_add_witness :
    scaleExp 0 = refDoubleAdd pallasQ 0 ∧ (0 = 0 → scaleExp 0 = 0) :=
  scale_matches_double_add 0 (by norm_num [pallasQ])

/-- Claim C4: over a base field where the curve has no 2-torsion (as for
Pallas, whose group order is an odd prime, so `x³ + 5` has no root), the
wrapper `add` reports `isInfinity = true` exactly when `h = -g`, and
otherwise returns the complete-addition reference sum — covering both
the doubling case `g = h` and the generic case. -/
theorem add_complete (p : ℕ) [Fact p.Prime]
    (hno2 : ∀ x : ZMod p, x ^ 3 + 5 ≠ 0)
    (g h : Pt p) (hg : onCurve g) (hh : onCurve h) :
    ((add g h).2 = true ↔ h = negate g) ∧
    ((add g h).2 = false → refAdd g h = some (add g h).1) := by
  have h2z : (2 : ZMod p) ≠ 0 := by
    intro h2
    apply hno2 1
    calc (1 : ZMod p) ^ 3 + 5 = 3 * 2 := by ring
      _ = 0 := by rw [h2, mul_zero]
  have hy0 : ∀ P : Pt p, onCurve P → P.y ≠ 0 := by
    intro P hP h0
    exact hno2 P.x (by rw [← hP, h0]; ring)
  rcases eq_or_ne g.x h.x with hx | hx
  · -- same x-coordinate: on the curve, y₂ = ±y₁
    have hyy : h.y = g.y ∨ h.y = -g.y := by
      have hsq : h.y ^ 2 = g.y ^ 2 := by rw [hh, hg, hx]
      rcases mul_eq_zero.mp (show (h.y - g.y) * (h.y + g.y) = 0 by linear_combination hsq)
        with hz | hz
      · exact Or.inl (sub_eq_zero.mp hz)
      · exact Or.inr (add_eq_zero_iff_eq_neg.mp hz)
    have hyg : g.y ≠ -g.y := by
      intro hcon
      rcases mul_eq_zero.mp (show 2 * g.y = 0 by linear_combination hcon) with h2' | hy'
      · exact h2z h2'
      · exact hy0 g hg hy'
    rcases hyy with hyeq | hyneg
    · -- doubling: g = h, no infinity
      have hgh : g = h := by
        ext
        · exact hx
        · exact hyeq.symm
      have hne_neg : h ≠ negate g := by
        intro hcon
        have hproj : h.y = -g.y := congrArg Pt.y hcon
        exact hyg (hyeq.symm.trans hproj)
      constructor
      · constructor
        · intro hinf
          exfalso
          simp [add, hx, hyeq] at hinf
        · intro hcon
          exact absurd hcon hne_neg
      · intro _
        have hcond : ¬(g.x = h.x ∧ g.y ≠ h.y) := by
          intro ⟨_, hne⟩
          exact hne hyeq.symm
        simp [add, refAdd, hx, hyeq, hcond, hgh]
    · -- inverse pair: infinity
      have hyne : g.y ≠ h.y := by
        rw [hyneg]
        exact hyg
      have hinf : (add g h).2 = true := by
        simp [add, hx, hyne]
      have hneg : h = negate g := by
        ext
        · exact hx.symm
        · exact hyneg
      refine ⟨⟨fun _ => hneg, fun _ => hinf⟩, fun hfalse => ?_⟩
      rw [hinf] at hfalse
      exact absurd hfalse (by simp)
  · -- different x-coordinates: generic chord addition, no infinity
    have hinf : (add g h).2 = false := by simp [add, hx]
    have hne_neg : h ≠ negate g := by
      intro hcon
      exact hx (congrArg Pt.x hcon).symm
    have hgh : g ≠ h := fun hc => hx (congrArg Pt.x hc)
    have hcond : ¬(g.x = h.x ∧ g.y ≠ h.y) := by
      intro ⟨h1, _⟩
      exact hx h1
    refine ⟨⟨fun habs => absurd (hinf ▸ habs) (by simp), fun hcon => absurd hcon hne_neg⟩,
      fun _ => ?_⟩
    simp [add, refAdd, hx, hcond, hgh]

/-- Witness for C4 over `F₇` (where `x³ + 5` has no root), doubling the
curve point `(3, 2)`. -/
theorem add_complete_witness :
    ((add (⟨3, 2⟩ : Pt 7) ⟨3, 2⟩).2 = true ↔ (⟨3, 2⟩ : Pt 7) = negate ⟨3, 2⟩) ∧
    ((add (⟨3, 2⟩ : Pt 7) ⟨3, 2⟩).2 = false →
      refAdd (⟨3, 2⟩ : Pt 7) ⟨3, 2⟩ = some (add (⟨3, 2⟩ : Pt 7) ⟨3, 2⟩).1) :=
  @add_complete 7 (Fact.mk (by norm_num)) (by decide) ⟨3, 2⟩ ⟨3, 2⟩ (by decide) (by decide)

/-- Claim C10: `scaleShiftedSplit5` emits no boolean constraint on the
five low bits of its ShiftedScalar argument (they are consumed only as
select conditions), while the producer `field3ToShiftedScalar` asserts
each of the five witnessed low bits boolean; and for bit-valued `low5`
the walk's output is the exponent `32·tHi + packBits(low5) + 2^254`,
i.e. `(t + 2^254)·P`. -/
theorem scaleShiftedSplit5_bit_handling :
    (∀ i : Fin 5, CEvent.boolCheck i ∉ scaleShiftedSplit5Cs) ∧
    (∀ i : Fin 5, CEvent.boolCheck i ∈ field3ToShiftedScalarCs) ∧
    (∀ (b : Fin 5 → Bool) (tHi : ZMod pallasQ),
      scaleShiftedWalk pallasQ b tHi = 32 * tHi + (packLow5 b : ℕ) + 2 ^ 254) :=
  ⟨by decide, by decide, fun b tHi => walk_eq pallasQ b tHi⟩

end NativeCurve
